import Mathlib

set_option maxHeartbeats 1000000

namespace Ctree

/-- A snapshot of the metadata the walker consults about one directory entry,
corresponding to the fields of os.FileInfo the code reads. -/
structure FileInfo where
  name : String
  isDir : Bool
  deriving Repr, DecidableEq

/-- The filesystem capability: os.Stat for the root check, and the
os.Open plus Readdir pair of DNode.work collapsed into one listing call that
either returns the entries in listing order or the error the code records. -/
structure FS where
  stat : String → Except String FileInfo
  listDir : String → Except String (List FileInfo)

/-! Go's path package, as used by nodes.go: path.Clean, path.Join, path.Base.
The implementations below follow the Go standard library routines
segment by segment. -/

/-- Split a character list on the slash separator, keeping empty segments,
exactly as the slash runs are seen by Go's path.Clean scan. -/
def splitSlash : List Char → List (List Char)
  | [] => [[]]
  | c :: cs =>
    if c = '/' then [] :: splitSlash cs
    else
      match splitSlash cs with
      | [] => [[c]]
      | s :: ss => (c :: s) :: ss

/-- The segment loop of Go's path.Clean: drop empty and dot segments, cancel a
non-dotdot segment with a following dotdot, keep leading dotdots of a relative
path, and drop dotdots at a root.  The accumulator holds the kept segments in
reverse order. -/
def cleanLoop (rooted : Bool) : List (List Char) → List (List Char) → List (List Char)
  | out, [] => out
  | out, seg :: rest =>
    if seg = [] ∨ seg = ['.'] then cleanLoop rooted out rest
    else if seg = ['.', '.'] then
      match out with
      | [] => if rooted then cleanLoop rooted [] rest else cleanLoop rooted [['.', '.']] rest
      | o :: os =>
        if o = ['.', '.'] then cleanLoop rooted (seg :: o :: os) rest
        else cleanLoop rooted os rest
    else cleanLoop rooted (seg :: out) rest

/-- Join segments back with single slashes. -/
def joinSegs : List (List Char) → List Char
  | [] => []
  | [s] => s
  | s :: rest => s ++ '/' :: joinSegs rest

/-- Go's path.Clean on a string. -/
def pathClean (p : String) : String :=
  if p = "" then "."
  else
    let cs := p.toList
    let rooted := cs.head? = some '/'
    let out := (cleanLoop rooted [] (splitSlash cs)).reverse
    if rooted then String.mk ('/' :: joinSegs out)
    else if out = [] then "." else String.mk (joinSegs out)

/-- Go's path.Join restricted to the two-argument form used by DNode.work. -/
def pathJoin (a b : String) : String :=
  if a = "" ∧ b = "" then ""
  else if a = "" then pathClean b
  else pathClean (String.mk (a.toList ++ '/' :: b.toList))

/-- Go's path.Base: strip trailing slashes, then keep the last element. -/
def pathBase (p : String) : String :=
  if p = "" then "."
  else
    let rs := p.toList.reverse.dropWhile (fun c => c = '/')
    if rs = [] then "/"
    else String.mk ((rs.takeWhile (fun c => c ≠ '/')).reverse)

/-! The node model of nodes.go. -/

/-- A leaf node, Leaf in nodes.go: a non-directory entry.  The info snapshot
and the parent back-pointer carry no behavior any claim touches, so only the
name and path fields are kept. -/
structure Leaf where
  name : String
  path : String
  deriving Repr, DecidableEq

/-- A directory node, DNode in nodes.go: name, path, the ordered child
directories, the ordered leaves, and the error recorded by work on a failed
open or listing. -/
inductive DNode where
  | mk (name : String) (path : String) (children : List DNode) (leaves : List Leaf)
      (err : Option String)

def DNode.name : DNode → String
  | .mk n _ _ _ _ => n

def DNode.path : DNode → String
  | .mk _ p _ _ _ => p

def DNode.children : DNode → List DNode
  | .mk _ _ cs _ _ => cs

def DNode.leaves : DNode → List Leaf
  | .mk _ _ _ ls _ => ls

def DNode.err : DNode → Option String
  | .mk _ _ _ _ e => e

/-- The Node interface of nodes.go, a closed sum of the two variants. -/
inductive Node where
  | dir (d : DNode)
  | leaf (l : Leaf)

/-- Path of a Node, the shared accessor of the interface. -/
def Node.path : Node → String
  | .dir d => d.path
  | .leaf l => l.path

mutual

/-- DNode.TotalLength from nodes.go: one for the node itself, its leaves, and
the total lengths of the children. -/
def DNode.TotalLength : DNode → Nat
  | .mk _ _ cs ls _ => 1 + ls.length + totalList cs

/-- Sum of TotalLength over a child list. -/
def totalList : List DNode → Nat
  | [] => 0
  | c :: cs => c.TotalLength + totalList cs

end

mutual

/-- DNode.Flatten from nodes.go: the node itself, then its leaves, then each
child flattened, in order. -/
def DNode.Flatten : DNode → List Node
  | .mk n p cs ls e => Node.dir (.mk n p cs ls e) :: (ls.map Node.leaf ++ flattenList cs)

/-- Concatenation of Flatten over a child list. -/
def flattenList : List DNode → List Node
  | [] => []
  | c :: cs => c.Flatten ++ flattenList cs

end

mutual

/-- DNode.Errors from nodes.go: this node's error, if set, followed by each
child's errors, depth first and left to right. -/
def DNode.Errors : DNode → List String
  | .mk _ _ cs _ e => (match e with | some m => [m] | none => []) ++ errorsList cs

/-- Concatenation of Errors over a child list. -/
def errorsList : List DNode → List String
  | [] => []
  | c :: cs => c.Errors ++ errorsList cs

end

/-- newNode from nodes.go: classify by IsDir; the name is path.Base of the
full path; a fresh DNode starts with no children, leaves or error. -/
def newNode (fullpath : String) (fi : FileInfo) : Node :=
  if fi.isDir then .dir (.mk (pathBase fullpath) fullpath [] [] none)
  else .leaf ⟨pathBase fullpath, fullpath⟩

/-- The finished subtree the traversal produces below one path: the listing
and classification loop of DNode.work applied recursively, with fuel.  At
fuel zero a bare unlisted node is returned; every use supplies fuel larger
than the rank of the path. -/
def build (fs : FS) : Nat → String → DNode
  | 0, p => .mk (pathBase p) p [] [] none
  | fuel + 1, p =>
    match fs.listDir p with
    | .error e => .mk (pathBase p) p [] [] (some e)
    | .ok es =>
      .mk (pathBase p) p
        ((es.filter (·.isDir)).map (fun e => build fs fuel (pathJoin p e.name)))
        ((es.filter (fun e => !e.isDir)).map
          (fun e => ⟨pathBase (pathJoin p e.name), pathJoin p e.name⟩))
        none

/-- A rank function witnessing that the directory graph the listings expose is
well founded: every listed subdirectory ranks strictly below its parent.  This
is the shallow form of the finite acyclic directory tree the spec assumes. -/
def Ranked (fs : FS) (rank : String → Nat) : Prop :=
  ∀ p es, fs.listDir p = .ok es →
    ∀ e ∈ es, e.isDir = true → rank (pathJoin p e.name) < rank p

theorem build_stable {fs : FS} {rank : String → Nat} (h : Ranked fs rank) :
    ∀ fuel p, rank p < fuel → build fs fuel p = build fs (rank p + 1) p := by
  intro fuel
  induction fuel using Nat.strong_induction_on with
  | _ fuel ih =>
    intro p hp
    match fuel, hp with
    | f + 1, hp =>
      show build fs (f + 1) p = build fs (rank p + 1) p
      simp only [build]
      cases hls : fs.listDir p with
      | error e => rfl
      | ok es =>
        simp only []
        congr 1
        apply List.map_congr_left
        intro e he
        have he2 : e ∈ es := (List.mem_filter.mp he).1
        have hdir : e.isDir = true := by
          have := (List.mem_filter.mp he).2
          simpa using this
        have hc : rank (pathJoin p e.name) < rank p := h p es hls e he2 hdir
        have e1 : build fs f (pathJoin p e.name)
            = build fs (rank (pathJoin p e.name) + 1) (pathJoin p e.name) := by
          apply ih f (by omega) _ (by omega)
        have e2 : build fs (rank p) (pathJoin p e.name)
            = build fs (rank (pathJoin p e.name) + 1) (pathJoin p e.name) := by
          apply ih (rank p) (by omega) _ (by omega)
        rw [e1, e2]

/-- Structural strong induction for the nested DNode type. -/
theorem DNode.strongInd {P : DNode → Prop}
    (h : ∀ n p cs ls e, (∀ c ∈ cs, P c) → P (.mk n p cs ls e)) : ∀ d, P d := by
  intro d
  have key : ∀ k (d : DNode), sizeOf d ≤ k → P d := by
    intro k
    induction k with
    | zero =>
      intro d hd
      cases d with
      | mk n p cs ls e => simp [DNode.mk.sizeOf_spec] at hd
    | succ k ih =>
      intro d hd
      cases d with
      | mk n p cs ls e =>
        apply h
        intro c hc
        apply ih
        have h1 : sizeOf c < sizeOf cs := List.sizeOf_lt_of_mem hc
        have h2 : sizeOf (DNode.mk n p cs ls e)
            = 1 + sizeOf n + sizeOf p + sizeOf cs + sizeOf ls + sizeOf e := by
          simp [DNode.mk.sizeOf_spec]
        omega
  exact key (sizeOf d) d le_rfl

/-! Positions and reachability in a finished tree, used to state that Flatten
enumerates every node exactly once. -/

/-- Reachability from a directory node through children and leaves. -/
inductive Reaches : DNode → Node → Prop
  | self (n : DNode) : Reaches n (.dir n)
  | leafMem {n : DNode} {l : Leaf} : l ∈ n.leaves → Reaches n (.leaf l)
  | childStep {n c : DNode} {m : Node} : c ∈ n.children → Reaches c m → Reaches n m

/-- A position in a directory tree: the node itself, its i-th leaf, or a
position inside its i-th child. -/
inductive TreePos where
  | here
  | leafAt (i : Nat)
  | childAt (i : Nat) (q : TreePos)
  deriving Repr, DecidableEq

mutual

/-- Every position of a tree, in the order Flatten visits them. -/
def posList : DNode → List TreePos
  | .mk _ _ cs ls _ =>
    TreePos.here :: ((List.range ls.length).map TreePos.leafAt ++ posListFrom 0 cs)

/-- Positions inside a child list whose first element has index i. -/
def posListFrom : Nat → List DNode → List TreePos
  | _, [] => []
  | i, c :: cs => (posList c).map (TreePos.childAt i) ++ posListFrom (i + 1) cs

end

/-- The node a position denotes, if the position is valid in the tree. -/
def nodeAt : DNode → TreePos → Option Node
  | n, .here => some (.dir n)
  | n, .leafAt i => (n.leaves[i]?).map Node.leaf
  | n, .childAt i q =>
    match n.children[i]? with
    | some c => nodeAt c q
    | none => none

/-- Errors of a Node: the recorded error of a directory node, none for a leaf. -/
def nodeErrOf : Node → Option String
  | .dir d => d.err
  | .leaf _ => none

/-! Lemmas about Flatten, TotalLength, positions and Errors. -/

theorem flattenList_length (cs : List DNode)
    (ih : ∀ c ∈ cs, (DNode.Flatten c).length = DNode.TotalLength c) :
    (flattenList cs).length = totalList cs := by
  induction cs with
  | nil => simp [flattenList, totalList]
  | cons c cs ihc =>
    simp only [flattenList, totalList, List.length_append]
    rw [ih c (by simp), ihc (fun x hx => ih x (List.mem_cons_of_mem _ hx))]

theorem flatten_length (n : DNode) : (DNode.Flatten n).length = DNode.TotalLength n := by
  induction n using DNode.strongInd with
  | h nm p cs ls e ih =>
    simp only [DNode.Flatten, DNode.TotalLength, List.length_cons, List.length_append,
      List.length_map]
    rw [flattenList_length cs ih]
    omega

theorem mem_flattenList {cs : List DNode} {m : Node} :
    m ∈ flattenList cs ↔ ∃ c ∈ cs, m ∈ DNode.Flatten c := by
  induction cs with
  | nil => simp [flattenList]
  | cons c cs ihc => simp [flattenList, ihc]

theorem mem_flatten_iff_reaches (n : DNode) : ∀ m, m ∈ DNode.Flatten n ↔ Reaches n m := by
  induction n using DNode.strongInd with
  | h nm p cs ls e ih =>
    intro m
    constructor
    · intro hm
      simp only [DNode.Flatten, List.mem_cons, List.mem_append, List.mem_map] at hm
      rcases hm with h1 | h2 | h3
      · subst h1; exact Reaches.self _
      · rcases h2 with ⟨l, hl, rfl⟩
        exact Reaches.leafMem (by simpa [DNode.leaves] using hl)
      · rcases mem_flattenList.mp h3 with ⟨c, hc, hmc⟩
        exact Reaches.childStep (by simpa [DNode.children] using hc) ((ih c hc m).mp hmc)
    · intro hr
      cases hr with
      | self => simp [DNode.Flatten]
      | leafMem hl =>
        simp only [DNode.leaves] at hl
        simp only [DNode.Flatten, List.mem_cons]
        exact Or.inr (List.mem_append_left _ (List.mem_map_of_mem _ hl))
      | childStep hc hrc =>
        simp only [DNode.children] at hc
        simp only [DNode.Flatten, List.mem_cons]
        exact Or.inr (List.mem_append_right _
          (mem_flattenList.mpr ⟨_, hc, (ih _ hc m).mpr hrc⟩))

theorem range_map_getElem (ls : List Leaf) :
    (List.range ls.length).map (fun i => ls[i]?) = ls.map some := by
  induction ls with
  | nil => simp
  | cons a ls ihl =>
    rw [List.length_cons, List.range_succ_eq_map]
    simp only [List.map_cons, List.map_map, List.getElem?_cons_zero, Function.comp_def,
      List.getElem?_cons_succ]
    rw [ihl]

theorem posListFrom_map_nodeAt (nm p : String) (ls : List Leaf) (e : Option String)
    (full : List DNode)
    (ih : ∀ c ∈ full, (posList c).map (nodeAt c) = (DNode.Flatten c).map some) :
    ∀ i cs, full.drop i = cs →
      (posListFrom i cs).map (nodeAt (.mk nm p full ls e)) = (flattenList cs).map some := by
  intro i cs
  induction cs generalizing i with
  | nil => intro _; simp [posListFrom, flattenList]
  | cons c cs ihc =>
    intro hdrop
    have hfull : full[i]? = some c := by
      have h0 := List.getElem?_drop full i 0
      rw [hdrop] at h0
      simpa using h0.symm
    have hcmem : c ∈ full := List.getElem?_mem hfull
    have hrest : full.drop (i + 1) = cs := by
      have h1 : (full.drop i).drop 1 = full.drop (i + 1) := List.drop_drop 1 i full
      rw [hdrop] at h1
      simpa using h1.symm
    simp only [posListFrom, flattenList, List.map_append, List.map_map]
    rw [ihc (i + 1) hrest]
    congr 1
    have hstep : ∀ q, nodeAt (DNode.mk nm p full ls e) (TreePos.childAt i q) = nodeAt c q := by
      intro q
      simp [nodeAt, DNode.children, hfull]
    simp only [Function.comp_def, hstep]
    exact ih c hcmem

theorem posList_map_nodeAt (n : DNode) :
    (posList n).map (nodeAt n) = (DNode.Flatten n).map some := by
  induction n using DNode.strongInd with
  | h nm p cs ls e ih =>
    simp only [posList, DNode.Flatten, List.map_cons, List.map_append, List.map_map]
    congr 1
    congr 1
    · have hleaf : ∀ i, nodeAt (DNode.mk nm p cs ls e) (TreePos.leafAt i)
          = (ls[i]?).map Node.leaf := by
        intro i; simp [nodeAt, DNode.leaves]
      simp only [Function.comp_def, hleaf]
      have : ((List.range ls.length).map fun i => (ls[i]?).map Node.leaf)
          = ((List.range ls.length).map fun i => ls[i]?).map (Option.map Node.leaf) := by
        simp [List.map_map, Function.comp_def]
      rw [this, range_map_getElem, List.map_map]
      simp [Function.comp_def]
    · exact posListFrom_map_nodeAt nm p ls e cs ih 0 cs (by simp)

theorem posListFrom_shape {cs : List DNode} :
    ∀ {i q}, q ∈ posListFrom i cs → ∃ j q', i ≤ j ∧ q = TreePos.childAt j q' := by
  induction cs with
  | nil => intro i q h; simp [posListFrom] at h
  | cons c cs ihc =>
    intro i q h
    simp only [posListFrom, List.mem_append, List.mem_map] at h
    rcases h with ⟨q', _, rfl⟩ | h
    · exact ⟨i, q', le_rfl, rfl⟩
    · rcases ihc h with ⟨j, q', hj, rfl⟩
      exact ⟨j, q', by omega, rfl⟩

theorem posListFrom_nodup (cs : List DNode)
    (ih : ∀ c ∈ cs, (posList c).Nodup) : ∀ i, (posListFrom i cs).Nodup := by
  induction cs with
  | nil => intro i; simp [posListFrom]
  | cons c cs ihc =>
    intro i
    simp only [posListFrom]
    apply List.Nodup.append
    · apply (ih c (by simp)).map
      intro a b hab
      injection hab
    · exact ihc (fun x hx => ih x (List.mem_cons_of_mem _ hx)) (i + 1)
    · intro q hq1 hq2
      rcases List.mem_map.mp hq1 with ⟨q', _, rfl⟩
      rcases posListFrom_shape hq2 with ⟨j, q'', hj, heq⟩
      have hij : i = j := by injection heq
      omega

theorem posList_nodup (n : DNode) : (posList n).Nodup := by
  induction n using DNode.strongInd with
  | h nm p cs ls e ih =>
    simp only [posList, List.nodup_cons]
    refine ⟨?_, ?_⟩
    · intro hmem
      rcases List.mem_append.mp hmem with h1 | h2
      · rcases List.mem_map.mp h1 with ⟨i, _, heq⟩
        exact absurd heq (by simp)
      · rcases posListFrom_shape h2 with ⟨j, q', _, heq⟩
        exact absurd heq (by simp)
    · apply List.Nodup.append
      · apply (List.nodup_range _).map
        intro a b hab
        injection hab
      · exact posListFrom_nodup cs ih 0
      · intro q hq1 hq2
        rcases List.mem_map.mp hq1 with ⟨i, _, rfl⟩
        rcases posListFrom_shape hq2 with ⟨j, q', _, heq⟩
        exact absurd heq (by simp)

theorem errorsList_eq (cs : List DNode)
    (ih : ∀ c ∈ cs, DNode.Errors c = (DNode.Flatten c).filterMap nodeErrOf) :
    errorsList cs = (flattenList cs).filterMap nodeErrOf := by
  induction cs with
  | nil => simp [errorsList, flattenList]
  | cons c cs ihc =>
    simp only [errorsList, flattenList, List.filterMap_append]
    rw [ih c (by simp), ihc (fun x hx => ih x (List.mem_cons_of_mem _ hx))]

theorem errors_eq_flatten_filterMap (n : DNode) :
    DNode.Errors n = (DNode.Flatten n).filterMap nodeErrOf := by
  induction n using DNode.strongInd with
  | h nm p cs ls e ih =>
    simp only [DNode.Errors, DNode.Flatten, List.filterMap_cons, List.filterMap_append]
    have hleaves : (ls.map Node.leaf).filterMap nodeErrOf = [] := by
      rw [List.filterMap_map]
      simp [Function.comp_def, nodeErrOf]
    rw [hleaves, errorsList_eq cs ih]
    cases e with
    | none => simp [nodeErrOf, DNode.err]
    | some m => simp [nodeErrOf, DNode.err]

/-- C4: Flatten returns exactly TotalLength(n) = 1 + number of leaves + sum of
the children's TotalLength elements, in the order: the node itself, then its
leaves, then each child's flattened sequence in child order; it visits every
tree position exactly once (no duplicates and no omissions), and its members
are exactly the nodes reachable through children and leaves. -/
theorem c4_flatten_enumeration (n : DNode) :
    (DNode.Flatten n).length = DNode.TotalLength n
      ∧ DNode.TotalLength n = 1 + n.leaves.length + totalList n.children
      ∧ DNode.Flatten n = Node.dir n :: (n.leaves.map Node.leaf ++ flattenList n.children)
      ∧ (posList n).Nodup
      ∧ (posList n).map (nodeAt n) = (DNode.Flatten n).map some
      ∧ ∀ m, m ∈ DNode.Flatten n ↔ Reaches n m := by
  refine ⟨flatten_length n, ?_, ?_, posList_nodup n, posList_map_nodeAt n,
    mem_flatten_iff_reaches n⟩
  · cases n
    simp [DNode.TotalLength, DNode.leaves, DNode.children]
  · cases n
    simp [DNode.Flatten, DNode.leaves, DNode.children]

/-- C8: Errors returns exactly this node's own error, if set, followed by each
child's Errors, depth first and left to right in child order; equivalently it
is the Flatten order filtered down to the recorded directory errors, so leaves
never contribute and successfully listed directories contribute nothing. -/
theorem c8_errors_order (n : DNode) :
    DNode.Errors n
        = (match n.err with | some m => [m] | none => []) ++ errorsList n.children
      ∧ DNode.Errors n = (DNode.Flatten n).filterMap nodeErrOf := by
  refine ⟨?_, errors_eq_flatten_filterMap n⟩
  cases n
  simp [DNode.Errors, DNode.err, DNode.children]

/-! Error isolation: which parts of the filesystem a build consults. -/

/-- The paths the recursive build consults: the node's own path and, when its
listing succeeds, the paths consulted below each subdirectory entry. -/
def touches (fs : FS) : Nat → String → List String
  | 0, p => [p]
  | fuel + 1, p =>
    p :: (match fs.listDir p with
      | .error _ => []
      | .ok es =>
        (es.filter (·.isDir)).flatMap (fun e => touches fs fuel (pathJoin p e.name)))

theorem build_congr {fs1 fs2 : FS} :
    ∀ fuel p, (∀ q ∈ touches fs1 fuel p, fs1.listDir q = fs2.listDir q) →
      build fs1 fuel p = build fs2 fuel p := by
  intro fuel
  induction fuel with
  | zero => intro p _; rfl
  | succ f ih =>
    intro p hagree
    have hp : fs1.listDir p = fs2.listDir p := hagree p (by simp [touches])
    simp only [build, ← hp]
    cases hls : fs1.listDir p with
    | error e => rfl
    | ok es =>
      simp only []
      congr 1
      apply List.map_congr_left
      intro e he
      apply ih
      intro q hq
      apply hagree
      simp only [touches, hls, List.mem_cons]
      exact Or.inr (List.mem_flatMap.mpr ⟨e, he, hq⟩)

/-! The scheduler of api.go, as the code actually executes.  Root.Run calls
r.allWork() directly in its for loop, without the go keyword, so the worker
loop runs on the calling thread and the iterations run one after another; the
only other goroutine is the one that seeds the root into the work channel,
which is equivalent to starting with the root already buffered.  Execution is
therefore deterministic and is modelled as a step function on a machine
state. -/

/-- A frame of DNode.work: about to run work on a path, iterating the hand-off
loop over the remaining child paths, or between a successful channel send and
the pending increment that follows it in the same select case. -/
inductive Frame where
  | start (p : String)
  | loop (p : String) (rest : List String)
  | postSend (p : String) (rest : List String)
  deriving Repr, DecidableEq

/-- Control state of the single thread Run drives through allWork: between two
allWork calls, at the select of allWork, inside a work call (a frame plus the
stack of suspended callers), about to decrement pending after a work call
returned, or finished with the whole worker loop. -/
inductive Ctrl where
  | idle
  | select
  | work (f : Frame) (stack : List Frame)
  | decr
  | done
  deriving Repr, DecidableEq

/-- The scheduler state: the work channel buffer and its capacity, the pending
counter, whether the stop channel is closed and how many times close was
called on it, the remaining iterations of Run's worker for-loop, the control
state of the thread, and the log of every node path created so far. -/
structure Sched where
  cap : Int
  queue : List String
  pending : Int
  stopClosed : Bool
  closeCount : Nat
  threadsLeft : Nat
  ctrl : Ctrl
  created : List String
  deriving Repr, DecidableEq

/-- Return from a work call: resume the suspended caller frame, or fall back
into allWork, whose next action is the pending decrement. -/
def popFrame (s : Sched) (stack : List Frame) : Sched :=
  match stack with
  | [] => { s with ctrl := .decr }
  | f :: rest => { s with ctrl := .work f rest }

/-- One atomic step of the scheduler.  In the two selects the stop branch is
written first; when the stop channel is closed and the other operand is also
ready Go would pick a ready case at random, but the invariants below show a
closed stop never coexists with a nonempty queue or a running work call, so
the choice never arises.  A select blocked on an empty queue with the stop
channel open leaves the state unchanged; the invariants show this state is
unreachable as well. -/
def step (fs : FS) (s : Sched) : Sched :=
  match s.ctrl with
  | .done => s
  | .idle =>
    if s.threadsLeft = 0 then { s with ctrl := .done }
    else { s with threadsLeft := s.threadsLeft - 1, ctrl := .select }
  | .select =>
    if s.stopClosed then { s with ctrl := .idle }
    else
      match s.queue with
      | [] => s
      | p :: rest => { s with queue := rest, ctrl := .work (.start p) [] }
  | .work f stack =>
    match f with
    | .start p =>
      match fs.listDir p with
      | .error _ => popFrame s stack
      | .ok es =>
        { s with
          created := s.created ++ es.map (fun e => pathJoin p e.name)
          ctrl := .work
            (.loop p ((es.filter (·.isDir)).map (fun e => pathJoin p e.name))) stack }
    | .loop _ [] => popFrame s stack
    | .loop p (c :: rest) =>
      if s.stopClosed then popFrame s stack
      else if (s.queue.length : Int) < s.cap then
        { s with queue := s.queue ++ [c], ctrl := .work (.postSend p rest) stack }
      else
        { s with ctrl := .work (.start c) (.loop p rest :: stack) }
    | .postSend p rest =>
      { s with pending := s.pending + 1, ctrl := .work (.loop p rest) stack }
  | .decr =>
    if s.pending - 1 < 1 then
      { s with
          pending := s.pending - 1
          stopClosed := true
          closeCount := s.closeCount + 1
          ctrl := .idle }
    else { s with pending := s.pending - 1, ctrl := .select }

/-- The state after Root.setup, the root checks, newNode on the root and the
seeding goroutine: configuration normalized as in setup, the root created and
buffered, pending initialized to one, stop open, no allWork call begun. -/
def initSched (path : String) (threads cap : Int) : Sched :=
  { cap := if cap < 0 then 1024 else cap
    queue := [path]
    pending := 1
    stopClosed := false
    closeCount := 0
    threadsLeft := (if threads ≤ 0 then 4 else threads).toNat
    ctrl := .idle
    created := [path] }

/-- Iterate the step function. -/
def stepN (fs : FS) : Nat → Sched → Sched
  | 0, s => s
  | n + 1, s => stepN fs n (step fs s)

/-! Go's strconv.Quote, the routine behind the %q verb that Run's
not-a-directory message uses.  Quote writes a double-quoted string: a quote or
backslash rune is backslash-escaped, a printable rune is copied verbatim, the
seven single-letter control escapes are used where they exist, and every other
rune becomes a two, four or eight digit lowercase hexadecimal escape.
Printability outside those hardwired branches is decided by Go's Unicode
tables; the tables are plain data, so they enter the model as a parameter,
which Go fixes on the ASCII range to exactly the runes from space to tilde.
Lean strings hold only valid Unicode scalar values, so Quote's invalid-byte
branch cannot arise here. -/

/-- Lowercase hexadecimal digit. -/
def hexDigit (n : Nat) : Char :=
  if n < 10 then Char.ofNat (48 + n) else Char.ofNat (87 + n)

/-- Fixed-width lowercase hexadecimal, most significant digit first. -/
def hexChars (width n : Nat) : List Char :=
  (List.range width).reverse.map (fun i => hexDigit (n / 16 ^ i % 16))

/-- One rune of strconv.Quote's output, following appendEscapedRune. -/
def quoteChar (tab : Char → Bool) (c : Char) : List Char :=
  if c = '"' ∨ c = '\\' then ['\\', c]
  else if tab c then [c]
  else if c = Char.ofNat 7 then ['\\', 'a']
  else if c = Char.ofNat 8 then ['\\', 'b']
  else if c = Char.ofNat 12 then ['\\', 'f']
  else if c = Char.ofNat 10 then ['\\', 'n']
  else if c = Char.ofNat 13 then ['\\', 'r']
  else if c = Char.ofNat 9 then ['\\', 't']
  else if c = Char.ofNat 11 then ['\\', 'v']
  else if c.toNat < 32 ∨ c.toNat = 127 then '\\' :: 'x' :: hexChars 2 c.toNat
  else if c.toNat < 65536 then '\\' :: 'u' :: hexChars 4 c.toNat
  else '\\' :: 'U' :: hexChars 8 c.toNat

/-- Go's strconv.Quote over a printability table for the non-hardwired
runes. -/
def goQuote (tab : Char → Bool) (s : String) : String :=
  String.mk ('"' :: (s.toList.flatMap (quoteChar tab) ++ ['"']))

/-- The printability table on ASCII, where Go's unicode.IsPrint holds exactly
for the runes from space to tilde; the concrete fixtures below never consult
it beyond ASCII. -/
def asciiPrint : Char → Bool := fun c => 32 ≤ c.toNat && c.toNat ≤ 126

/-- Root.Run up to the hand-off to the worker loop: stat the root path,
return the stat error if it fails, return the %q-quoted not-a-directory
message if the root is not a directory, and otherwise return the seeded
scheduler state.  Only in the last case does any worker iteration run, and
then Run's error result is nil.  The printability table of the quoting is the
model's stand-in for Go's Unicode tables. -/
def RunStart (tab : Char → Bool) (fs : FS) (path : String) (threads cap : Int) :
    Except String Sched :=
  match fs.stat path with
  | .error e => .error e
  | .ok fi =>
    if fi.isDir then .ok (initSched path threads cap)
    else .error (goQuote tab path ++ ": not a directory")

/-! The basic scheduler invariant: the pending counter counts the buffered
items plus the unit of work in flight, the stop channel closes only when the
queue has drained, and close is called at most once. -/

/-- One when a work call is running or its decrement is still owed, as in the
glossary's active task count. -/
def inflight : Ctrl → Int
  | .work _ _ => 1
  | .decr => 1
  | _ => 0

/-- One for a frame sitting between a successful send and its increment. -/
def framePS : Frame → Int
  | .postSend _ _ => 1
  | _ => 0

/-- Sends whose pending increment has not happened yet. -/
def postSends : Ctrl → Int
  | .work f stack => framePS f + (stack.map framePS).sum
  | _ => 0

/-- Control states in which no work call is active. -/
def ctrlQuiet : Ctrl → Prop
  | .work _ _ => False
  | .decr => False
  | _ => True

/-- The basic invariant of every reachable scheduler state. -/
structure InvB (s : Sched) : Prop where
  hpend : s.pending = (s.queue.length : Int) + inflight s.ctrl - postSends s.ctrl
  hlive : s.stopClosed = false → 1 ≤ s.pending
  hstopq : s.stopClosed = true → s.queue = []
  hstopc : s.stopClosed = true → ctrlQuiet s.ctrl
  hclose : s.closeCount = if s.stopClosed then 1 else 0
  hidle : s.stopClosed = false → s.ctrl = .idle → 1 ≤ s.threadsLeft
  hdone : s.ctrl = .done → s.stopClosed = true

theorem invB_init (path : String) (threads cap : Int) : InvB (initSched path threads cap) := by
  refine ⟨?_, ?_, ?_, ?_, ?_, ?_, ?_⟩ <;>
    simp [initSched, inflight, postSends, ctrlQuiet]
  by_cases h : threads ≤ 0
  · simp [h]
  · simp [h]
    omega

theorem invB_step (fs : FS) (s : Sched) (hb : InvB s) : InvB (step fs s) := by
  obtain ⟨hpend, hlive, hstopq, hstopc, hclose, hidle, hdone⟩ := hb
  obtain ⟨cap, queue, pending, stop, cc, tl, ctrl, created⟩ := s
  simp only at hpend hlive hstopq hstopc hclose hidle hdone
  cases ctrl with
  | done =>
    exact ⟨hpend, hlive, hstopq, hstopc, hclose, hidle, hdone⟩
  | idle =>
    by_cases htl : tl = 0
    · subst htl
      have hstop : stop = true := by
        cases stop with
        | false => exact absurd (hidle rfl rfl) (by omega)
        | true => rfl
      subst hstop
      refine ⟨?_, ?_, ?_, ?_, ?_, ?_, ?_⟩ <;>
        simp_all [step, inflight, postSends, ctrlQuiet]
    · refine ⟨?_, ?_, ?_, ?_, ?_, ?_, ?_⟩ <;>
        simp_all [step, inflight, postSends, ctrlQuiet]
  | select =>
    cases stop with
    | true =>
      refine ⟨?_, ?_, ?_, ?_, ?_, ?_, ?_⟩ <;>
        simp_all [step, inflight, postSends, ctrlQuiet]
    | false =>
      cases queue with
      | nil =>
        exact ⟨hpend, hlive, hstopq, hstopc, hclose, hidle, hdone⟩
      | cons p rest =>
        refine ⟨?_, ?_, ?_, ?_, ?_, ?_, ?_⟩ <;>
          simp_all [step, inflight, postSends, framePS, ctrlQuiet]
  | work f stack =>
    have hstop : stop = false := by
      cases stop with
      | false => rfl
      | true => exact absurd (hstopc rfl) (by simp [ctrlQuiet])
    subst hstop
    cases f with
    | start p =>
      cases hls : fs.listDir p with
      | error e =>
        cases stack with
        | nil =>
          refine ⟨?_, ?_, ?_, ?_, ?_, ?_, ?_⟩ <;>
            simp_all [step, popFrame, inflight, postSends, framePS, ctrlQuiet]
        | cons g rest =>
          refine ⟨?_, ?_, ?_, ?_, ?_, ?_, ?_⟩ <;>
            simp_all [step, popFrame, inflight, postSends, framePS, ctrlQuiet]
      | ok es =>
        refine ⟨?_, ?_, ?_, ?_, ?_, ?_, ?_⟩ <;>
          simp_all [step, inflight, postSends, framePS, ctrlQuiet]
    | loop p rest =>
      cases rest with
      | nil =>
        cases stack with
        | nil =>
          refine ⟨?_, ?_, ?_, ?_, ?_, ?_, ?_⟩ <;>
            simp_all [step, popFrame, inflight, postSends, framePS, ctrlQuiet]
        | cons g rest2 =>
          refine ⟨?_, ?_, ?_, ?_, ?_, ?_, ?_⟩ <;>
            simp_all [step, popFrame, inflight, postSends, framePS, ctrlQuiet]
      | cons c rest2 =>
        by_cases hq : (queue.length : Int) < cap
        · simp only [step, Bool.false_eq_true, if_false]
          rw [if_pos hq]
          refine ⟨?_, ?_, ?_, ?_, ?_, ?_, ?_⟩ <;>
            simp_all [inflight, postSends, framePS, ctrlQuiet]
          omega
        · simp only [step, Bool.false_eq_true, if_false]
          rw [if_neg hq]
          refine ⟨?_, ?_, ?_, ?_, ?_, ?_, ?_⟩ <;>
            simp_all [inflight, postSends, framePS, ctrlQuiet]
    | postSend p rest =>
      refine ⟨?_, ?_, ?_, ?_, ?_, ?_, ?_⟩ <;>
        simp_all [step, inflight, postSends, framePS, ctrlQuiet] <;> omega
  | decr =>
    have hstop : stop = false := by
      cases stop with
      | false => rfl
      | true => exact absurd (hstopc rfl) (by simp [ctrlQuiet])
    subst hstop
    by_cases hp : pending - 1 < 1
    · have hq : queue = [] := by
        simp [inflight, postSends] at hpend
        cases queue with
        | nil => rfl
        | cons a l => simp at hpend; omega
      subst hq
      refine ⟨?_, ?_, ?_, ?_, ?_, ?_, ?_⟩ <;>
        simp_all [step, inflight, postSends, ctrlQuiet]
    · refine ⟨?_, ?_, ?_, ?_, ?_, ?_, ?_⟩ <;>
        simp_all [step, inflight, postSends, ctrlQuiet]
      exact List.length_pos.mpr hp

theorem invB_stepN (fs : FS) : ∀ n s, InvB s → InvB (stepN fs n s) := by
  intro n
  induction n with
  | zero => intro s h; exact h
  | succ n ih => intro s h; exact ih (step fs s) (invB_step fs s h)

/-! The permutation invariant: the paths created so far, together with the
paths still owed below every handed-off directory, form exactly the node
paths of the finished tree. -/

/-- Paths of every node of a finished subtree, in Flatten order. -/
def allPaths (n : DNode) : List String := n.Flatten.map Node.path

theorem flattenList_map_path (cs : List DNode) :
    (flattenList cs).map Node.path = cs.flatMap allPaths := by
  induction cs with
  | nil => simp [flattenList]
  | cons c cs ihc => simp [flattenList, allPaths, ihc]

theorem allPaths_mk (nm p : String) (cs : List DNode) (ls : List Leaf) (e : Option String) :
    allPaths (.mk nm p cs ls e) = p :: (ls.map Leaf.path ++ cs.flatMap allPaths) := by
  simp [allPaths, DNode.Flatten, flattenList_map_path, List.map_map, Function.comp_def,
    Node.path, DNode.path, Leaf.path]

theorem allPaths_length (n : DNode) : (allPaths n).length = DNode.TotalLength n := by
  simp [allPaths, flatten_length]

/-- The node paths still to be created below a handed-off directory path:
everything in its finished subtree except the node itself, which was created
when its parent was listed. -/
def descM (fs : FS) (rank : String → Nat) (p : String) : Multiset String :=
  ((allPaths (build fs (rank p + 1) p)).tail : Multiset String)

/-- Pending created-paths of a work frame. -/
def framePendM (fs : FS) (rank : String → Nat) : Frame → Multiset String
  | .start p => descM fs rank p
  | .loop _ rest => (rest.map (descM fs rank)).sum
  | .postSend _ rest => (rest.map (descM fs rank)).sum

/-- Pending created-paths of the control state. -/
def ctrlPendM (fs : FS) (rank : String → Nat) : Ctrl → Multiset String
  | .work f stack => framePendM fs rank f + (stack.map (framePendM fs rank)).sum
  | _ => 0

/-- All paths the scheduler still owes: below each buffered item plus below
the frames of the running work call. -/
def oblM (fs : FS) (rank : String → Nat) (s : Sched) : Multiset String :=
  (s.queue.map (descM fs rank)).sum + ctrlPendM fs rank s.ctrl

/-- The permutation invariant. -/
def InvP (fs : FS) (rank : String → Nat) (root : String) (s : Sched) : Prop :=
  (s.created : Multiset String) + oblM fs rank s
    = (allPaths (build fs (rank root + 1) root) : Multiset String)

theorem coe_flatMap_eq_sum {α β : Type _} (xs : List α) (g : α → List β) :
    ((xs.flatMap g : List β) : Multiset β)
      = (xs.map (fun x => ((g x : List β) : Multiset β))).sum := by
  induction xs with
  | nil => simp
  | cons x xs ih => simp [List.flatMap_cons, ← Multiset.coe_add, ih]

theorem sum_map_add_split {α : Type _} (l : List α) (f : α → String)
    (g : α → Multiset String) :
    (l.map (fun x => (f x ::ₘ g x : Multiset String))).sum
      = ((l.map f : List String) : Multiset String) + (l.map g).sum := by
  induction l with
  | nil => simp
  | cons x l ih =>
    simp only [List.map_cons, List.sum_cons, ih]
    rw [show ((f x :: l.map f : List String) : Multiset String)
        = (f x ::ₘ ((l.map f : List String) : Multiset String)) from
        (Multiset.cons_coe _ _).symm]
    rw [← Multiset.singleton_add, ← Multiset.singleton_add]
    abel

theorem allPaths_build_head (fs : FS) (fuel : Nat) (p : String) :
    allPaths (build fs fuel p) = p :: (allPaths (build fs fuel p)).tail := by
  cases fuel with
  | zero => simp [build, allPaths_mk]
  | succ f =>
    cases hls : fs.listDir p with
    | error e => simp [build, hls, allPaths_mk]
    | ok es => simp [build, hls, allPaths_mk]

theorem descM_unfold {fs : FS} {rank : String → Nat} (h : Ranked fs rank)
    {p : String} {es : List FileInfo} (hls : fs.listDir p = .ok es) :
    descM fs rank p
      = ((es.map (fun e => pathJoin p e.name) : List String) : Multiset String)
        + ((((es.filter (·.isDir)).map (fun e => pathJoin p e.name)).map
              (descM fs rank)).sum) := by
  have hbuild : build fs (rank p + 1) p
      = .mk (pathBase p) p
          ((es.filter (·.isDir)).map (fun e => build fs (rank p) (pathJoin p e.name)))
          ((es.filter (fun e => !e.isDir)).map
            (fun e => ⟨pathBase (pathJoin p e.name), pathJoin p e.name⟩))
          none := by
    simp [build, hls]
  have hstab : ∀ e ∈ es.filter (·.isDir),
      build fs (rank p) (pathJoin p e.name)
        = build fs (rank (pathJoin p e.name) + 1) (pathJoin p e.name) := by
    intro e he
    have he2 : e ∈ es := (List.mem_filter.mp he).1
    have hdir : e.isDir = true := by simpa using (List.mem_filter.mp he).2
    exact build_stable h (rank p) (pathJoin p e.name) (h p es hls e he2 hdir)
  rw [descM, hbuild, allPaths_mk]
  simp only [List.tail_cons]
  rw [List.map_map]
  have hleafpaths : (es.filter (fun e => !e.isDir)).map
        (Leaf.path ∘ fun e => (⟨pathBase (pathJoin p e.name), pathJoin p e.name⟩ : Leaf))
      = (es.filter (fun e => !e.isDir)).map (fun e => pathJoin p e.name) :=
    List.map_congr_left (fun e _ => rfl)
  rw [hleafpaths, ← Multiset.coe_add, coe_flatMap_eq_sum, List.map_map]
  have hchild : ∀ e ∈ es.filter (·.isDir),
      ((allPaths (build fs (rank p) (pathJoin p e.name)) : List String) : Multiset String)
        = pathJoin p e.name ::ₘ descM fs rank (pathJoin p e.name) := by
    intro e he
    rw [hstab e he, descM]
    conv_lhs => rw [allPaths_build_head fs (rank (pathJoin p e.name) + 1) (pathJoin p e.name)]
    exact (Multiset.cons_coe _ _).symm
  simp only [Function.comp_def]
  rw [List.map_congr_left hchild]
  rw [show (List.map (fun a => pathJoin p a.name ::ₘ descM fs rank (pathJoin p a.name))
        (es.filter (·.isDir))).sum
      = (((es.filter (·.isDir)).map (fun e => pathJoin p e.name) : List String)
          : Multiset String)
        + ((es.filter (·.isDir)).map (fun e => descM fs rank (pathJoin p e.name))).sum
    from sum_map_add_split _ _ _]
  rw [List.map_map]
  simp only [Function.comp_def]
  have hsplit : ((es.map (fun e => pathJoin p e.name) : List String) : Multiset String)
      = (((es.filter (·.isDir)).map (fun e => pathJoin p e.name) : List String)
          : Multiset String)
        + (((es.filter (fun e => !e.isDir)).map (fun e => pathJoin p e.name) : List String)
          : Multiset String) := by
    rw [Multiset.coe_add, Multiset.coe_eq_coe, ← List.map_append]
    exact (List.filter_append_perm _ es).map _ |>.symm
  rw [hsplit]
  abel

theorem descM_error {fs : FS} {rank : String → Nat} {p e : String}
    (hls : fs.listDir p = .error e) : descM fs rank p = 0 := by
  simp [descM, build, hls, allPaths_mk]

theorem invP_step (fs : FS) (rank : String → Nat) (root : String) (h : Ranked fs rank)
    (s : Sched) (hb : InvB s) (hp : InvP fs rank root s) : InvP fs rank root (step fs s) := by
  have hstopc := hb.hstopc
  obtain ⟨cap, queue, pending, stop, cc, tl, ctrl, created⟩ := s
  simp only at hstopc
  simp only [InvP, oblM] at hp ⊢
  cases ctrl with
  | done => exact hp
  | idle =>
    by_cases htl : tl = 0 <;> simp_all [step, ctrlPendM]
  | select =>
    cases stop with
    | true => simp_all [step, ctrlPendM]
    | false =>
      cases queue with
      | nil => simpa [step, ctrlPendM] using hp
      | cons p rest =>
        simp only [step, Bool.false_eq_true, if_false, ctrlPendM, framePendM,
          List.map_cons, List.sum_cons, List.map_nil, List.sum_nil, add_zero] at hp ⊢
        rw [← hp]
        abel
  | work f stack =>
    have hstop : stop = false := by
      cases stop with
      | false => rfl
      | true => exact absurd (hstopc rfl) (by simp [ctrlQuiet])
    subst hstop
    cases f with
    | start p =>
      cases hls : fs.listDir p with
      | error e =>
        cases stack with
        | nil =>
          simp only [step, hls, popFrame, ctrlPendM, framePendM, List.map_nil,
            List.sum_nil, add_zero] at hp ⊢
          rw [descM_error hls] at hp
          rw [← hp]
          abel
        | cons g rest =>
          simp only [step, hls, popFrame, ctrlPendM, framePendM, List.map_cons,
            List.sum_cons] at hp ⊢
          rw [descM_error hls] at hp
          rw [← hp]
          abel
      | ok es =>
        simp only [step, hls, ctrlPendM, framePendM] at hp ⊢
        rw [descM_unfold h hls] at hp
        rw [← hp, ← Multiset.coe_add]
        abel
    | loop p rest0 =>
      cases rest0 with
      | nil =>
        cases stack with
        | nil =>
          simp only [step, popFrame, ctrlPendM, framePendM, List.map_nil,
            List.sum_nil, add_zero] at hp ⊢
          exact hp
        | cons g rest =>
          simp only [step, popFrame, ctrlPendM, framePendM, List.map_nil,
            List.sum_nil, List.map_cons, List.sum_cons, zero_add] at hp ⊢
          rw [← hp]
      | cons c rest =>
        by_cases hq : (queue.length : Int) < cap
        · simp only [step, Bool.false_eq_true, if_false, if_pos hq, ctrlPendM, framePendM,
            List.map_cons, List.sum_cons, List.map_append, List.sum_append,
            List.map_nil, List.sum_nil, add_zero] at hp ⊢
          rw [← hp]
          abel
        · simp only [step, Bool.false_eq_true, if_false, if_neg hq, ctrlPendM, framePendM,
            List.map_cons, List.sum_cons] at hp ⊢
          rw [← hp]
          abel
    | postSend p rest =>
      simp only [step, ctrlPendM, framePendM] at hp ⊢
      exact hp
  | decr =>
    by_cases hpd : pending - 1 < 1
    · simp only [step, if_pos hpd, ctrlPendM] at hp ⊢
      exact hp
    · simp only [step, if_neg hpd, ctrlPendM] at hp ⊢
      exact hp

theorem invP_stepN (fs : FS) (rank : String → Nat) (root : String) (h : Ranked fs rank) :
    ∀ n s, InvB s → InvP fs rank root s → InvP fs rank root (stepN fs n s) := by
  intro n
  induction n with
  | zero => intro s _ hp; exact hp
  | succ n ih =>
    intro s hb hp
    exact ih (step fs s) (invB_step fs s hb) (invP_step fs rank root h s hb hp)

theorem invP_init (fs : FS) (rank : String → Nat) (path : String) (threads cap : Int) :
    InvP fs rank path (initSched path threads cap) := by
  simp only [InvP, initSched, oblM, ctrlPendM, List.map_cons, List.map_nil,
    List.sum_cons, List.sum_nil, add_zero, descM]
  conv_rhs => rw [allPaths_build_head fs (rank path + 1) path]
  rw [← Multiset.cons_coe]
  rfl

/-! Termination: a measure on scheduler states that strictly decreases at
every step of a reachable, unfinished state. -/

mutual

/-- Weight of a finished subtree, used by the termination measure. -/
def weight : DNode → Nat
  | .mk _ _ cs _ _ => 8 + 8 * cs.length + weightList cs

/-- Sum of weights over a child list. -/
def weightList : List DNode → Nat
  | [] => 0
  | c :: cs => weight c + weightList cs

end

theorem weightList_eq (cs : List DNode) : weightList cs = (cs.map weight).sum := by
  induction cs with
  | nil => simp [weightList]
  | cons c cs ih => simp [weightList, ih]

/-- Remaining weight below a handed-off path. -/
def pw (fs : FS) (rank : String → Nat) (p : String) : Nat :=
  weight (build fs (rank p + 1) p)

/-- Measure contribution of a frame. -/
def frameWt (fs : FS) (rank : String → Nat) : Frame → Nat
  | .start p => pw fs rank p + 1
  | .loop _ rest => (rest.map (fun c => pw fs rank c + 7)).sum + 1
  | .postSend _ rest => (rest.map (fun c => pw fs rank c + 7)).sum + 2

/-- Measure contribution of the control state. -/
def ctrlWt (fs : FS) (rank : String → Nat) : Ctrl → Nat
  | .done => 0
  | .idle => 1
  | .select => 2
  | .decr => 3
  | .work f stack => frameWt fs rank f + (stack.map (frameWt fs rank)).sum + 4

/-- The termination measure of a scheduler state. -/
def schedWt (fs : FS) (rank : String → Nat) (s : Sched) : Nat :=
  (s.queue.map (fun p => pw fs rank p + 4)).sum + ctrlWt fs rank s.ctrl
    + 6 * s.threadsLeft

theorem sum_map_add_const {α : Type _} (l : List α) (f : α → Nat) (k : Nat) :
    (l.map (fun c => f c + k)).sum = (l.map f).sum + k * l.length := by
  induction l with
  | nil => simp
  | cons c l ih => simp [ih]; ring

theorem pw_error {fs : FS} {rank : String → Nat} {p e : String}
    (hls : fs.listDir p = .error e) : pw fs rank p = 8 := by
  simp [pw, build, hls, weight, weightList]

theorem pw_unfold {fs : FS} {rank : String → Nat} (h : Ranked fs rank)
    {p : String} {es : List FileInfo} (hls : fs.listDir p = .ok es) :
    pw fs rank p
      = 8 + 8 * ((es.filter (·.isDir)).map (fun e => pathJoin p e.name)).length
        + (((es.filter (·.isDir)).map (fun e => pathJoin p e.name)).map
            (pw fs rank)).sum := by
  have hstab : ∀ e ∈ es.filter (·.isDir),
      build fs (rank p) (pathJoin p e.name)
        = build fs (rank (pathJoin p e.name) + 1) (pathJoin p e.name) := by
    intro e he
    have he2 : e ∈ es := (List.mem_filter.mp he).1
    have hdir : e.isDir = true := by simpa using (List.mem_filter.mp he).2
    exact build_stable h (rank p) (pathJoin p e.name) (h p es hls e he2 hdir)
  have hb : build fs (rank p + 1) p
      = .mk (pathBase p) p
          ((es.filter (·.isDir)).map (fun e => build fs (rank p) (pathJoin p e.name)))
          ((es.filter (fun e => !e.isDir)).map
            (fun e => ⟨pathBase (pathJoin p e.name), pathJoin p e.name⟩))
          none := by
    simp [build, hls]
  rw [pw, hb, weight, weightList_eq, List.map_map, List.map_map]
  have hpt : (es.filter (·.isDir)).map
        (weight ∘ fun e => build fs (rank p) (pathJoin p e.name))
      = (es.filter (·.isDir)).map (pw fs rank ∘ fun e => pathJoin p e.name) := by
    apply List.map_congr_left
    intro e he
    simp only [Function.comp_def, pw]
    rw [hstab e he]
  rw [hpt]
  simp [List.length_map]

theorem schedWt_step (fs : FS) (rank : String → Nat) (h : Ranked fs rank)
    (s : Sched) (hb : InvB s) (hnd : ¬ s.ctrl = .done) :
    schedWt fs rank (step fs s) < schedWt fs rank s := by
  obtain ⟨hpend, hlive, hstopq, hstopc, hclose, hidle, hdone⟩ := hb
  obtain ⟨cap, queue, pending, stop, cc, tl, ctrl, created⟩ := s
  simp only at hpend hlive hstopq hstopc hclose hidle hdone hnd
  cases ctrl with
  | done => exact absurd rfl hnd
  | idle =>
    by_cases htl : tl = 0
    · subst htl
      simp [step, schedWt, ctrlWt]
    · simp only [step, if_neg htl, schedWt, ctrlWt]
      omega
  | select =>
    cases stop with
    | true => simp [step, schedWt, ctrlWt]
    | false =>
      cases queue with
      | nil =>
        exfalso
        simp [inflight, postSends] at hpend
        have := hlive rfl
        omega
      | cons p rest =>
        simp [step, schedWt, ctrlWt, frameWt]
        omega
  | work f stack =>
    have hstop : stop = false := by
      cases stop with
      | false => rfl
      | true => exact absurd (hstopc rfl) (by simp [ctrlQuiet])
    subst hstop
    cases f with
    | start p =>
      cases hls : fs.listDir p with
      | error e =>
        have hpw := @pw_error fs rank p e hls
        cases stack with
        | nil =>
          simp [step, hls, popFrame, schedWt, ctrlWt, frameWt, hpw]
        | cons g rest =>
          simp [step, hls, popFrame, schedWt, ctrlWt, frameWt, hpw]
      | ok es =>
        have hpw := pw_unfold h hls
        simp only [step, hls, schedWt, ctrlWt, frameWt]
        rw [show ((((es.filter (·.isDir)).map (fun e => pathJoin p e.name)).map
              (fun c => pw fs rank c + 7)).sum)
            = (((es.filter (·.isDir)).map (fun e => pathJoin p e.name)).map
                (pw fs rank)).sum
              + 7 * ((es.filter (·.isDir)).map (fun e => pathJoin p e.name)).length
          from sum_map_add_const _ _ _]
        omega
    | loop p rest0 =>
      cases rest0 with
      | nil =>
        cases stack with
        | nil => simp [step, popFrame, schedWt, ctrlWt, frameWt]
        | cons g rest => simp [step, popFrame, schedWt, ctrlWt, frameWt]
      | cons c rest =>
        by_cases hq : (queue.length : Int) < cap
        · simp only [step, Bool.false_eq_true, if_false, if_pos hq, schedWt, ctrlWt,
            frameWt, List.map_cons, List.sum_cons, List.map_append, List.sum_append,
            List.map_nil, List.sum_nil]
          omega
        · simp only [step, Bool.false_eq_true, if_false, if_neg hq, schedWt, ctrlWt,
            frameWt, List.map_cons, List.sum_cons]
          omega
    | postSend p rest =>
      simp [step, schedWt, ctrlWt, frameWt]
  | decr =>
    by_cases hpd : pending - 1 < 1
    · simp only [step, if_pos hpd, schedWt, ctrlWt]
      omega
    · simp only [step, if_neg hpd, schedWt, ctrlWt]
      omega

theorem ctrlWt_pos (fs : FS) (rank : String → Nat) {c : Ctrl} (hc : ¬ c = .done) :
    1 ≤ ctrlWt fs rank c := by
  cases c <;> first | exact absurd rfl hc | simp [ctrlWt]

theorem terminates_from (fs : FS) (rank : String → Nat) (h : Ranked fs rank) :
    ∀ k s, InvB s → schedWt fs rank s ≤ k → ∃ n, (stepN fs n s).ctrl = .done := by
  intro k
  induction k with
  | zero =>
    intro s hb hw
    refine ⟨0, ?_⟩
    by_contra hd
    have h1 := ctrlWt_pos fs rank (c := s.ctrl) (by simpa [stepN] using hd)
    have h2 : ctrlWt fs rank s.ctrl ≤ schedWt fs rank s := by
      simp [schedWt]
      omega
    omega
  | succ k ih =>
    intro s hb hw
    by_cases hd : s.ctrl = .done
    · exact ⟨0, hd⟩
    · have hlt := schedWt_step fs rank h s hb hd
      obtain ⟨n, hn⟩ := ih (step fs s) (invB_step fs s hb) (by omega)
      exact ⟨n + 1, hn⟩

/-- The master theorem about the worker phase: on a filesystem whose listing
graph is ranked, the run reaches the finished state, and the multiset of node
paths it has created is exactly the node paths of the recursively built tree
of the root, whatever the thread count and queue capacity. -/
theorem run_completes (fs : FS) (rank : String → Nat) (h : Ranked fs rank)
    (path : String) (threads cap : Int) :
    ∃ n, (stepN fs n (initSched path threads cap)).ctrl = .done
      ∧ ((stepN fs n (initSched path threads cap)).created : Multiset String)
          = (allPaths (build fs (rank path + 1) path) : Multiset String) := by
  obtain ⟨n, hn⟩ := terminates_from fs rank h (schedWt fs rank (initSched path threads cap))
    (initSched path threads cap) (invB_init path threads cap) le_rfl
  have hb := invB_stepN fs n (initSched path threads cap) (invB_init path threads cap)
  have hp := invP_stepN fs rank path h n (initSched path threads cap)
    (invB_init path threads cap) (invP_init fs rank path threads cap)
  refine ⟨n, hn, ?_⟩
  have hq : (stepN fs n (initSched path threads cap)).queue = [] :=
    hb.hstopq (hb.hdone hn)
  have hobl : oblM fs rank (stepN fs n (initSched path threads cap)) = 0 := by
    simp [oblM, hq, hn, ctrlPendM]
  rw [InvP, hobl, add_zero] at hp
  exact hp

/-- C1: each dequeued unit of work owes exactly one decrement, performed after
its traversal step returns, and each successful enqueue is accounted by an
increment inside the same hand-off; consequently, in every reachable state of
the scheduler, the pending counter is at least one while any enqueued item is
buffered, any traversal step is in flight or owes its decrement, or any node
path of the finished tree remains uncreated. -/
theorem c1_counter_barrier (fs : FS) (rank : String → Nat) (path : String)
    (threads cap : Int) (n : Nat) (h : Ranked fs rank) :
    ((stepN fs n (initSched path threads cap)).queue ≠ []
        ∨ (∃ f stack, (stepN fs n (initSched path threads cap)).ctrl = Ctrl.work f stack)
        ∨ (stepN fs n (initSched path threads cap)).ctrl = Ctrl.decr
        ∨ ((stepN fs n (initSched path threads cap)).created : Multiset String)
            ≠ (allPaths (build fs (rank path + 1) path) : Multiset String)) →
      1 ≤ (stepN fs n (initSched path threads cap)).pending := by
  intro hrem
  have hb := invB_stepN fs n (initSched path threads cap) (invB_init path threads cap)
  have hp := invP_stepN fs rank path h n (initSched path threads cap)
    (invB_init path threads cap) (invP_init fs rank path threads cap)
  cases hstop : (stepN fs n (initSched path threads cap)).stopClosed with
  | false => exact hb.hlive hstop
  | true =>
    exfalso
    have hq := hb.hstopq hstop
    have hc := hb.hstopc hstop
    rcases hrem with h1 | ⟨f, st, h2⟩ | h3 | h4
    · exact h1 hq
    · rw [h2] at hc; simp [ctrlQuiet] at hc
    · rw [h3] at hc; simp [ctrlQuiet] at hc
    · apply h4
      have hobl : oblM fs rank (stepN fs n (initSched path threads cap)) = 0 := by
        simp only [oblM, hq, List.map_nil, List.sum_nil, zero_add]
        cases hctrl : (stepN fs n (initSched path threads cap)).ctrl with
        | idle => simp [ctrlPendM]
        | select => simp [ctrlPendM]
        | done => simp [ctrlPendM]
        | decr => rw [hctrl] at hc; simp [ctrlQuiet] at hc
        | work f st => rw [hctrl] at hc; simp [ctrlQuiet] at hc
      rw [InvP, hobl, add_zero] at hp
      exact hp

theorem stepN_succ (fs : FS) : ∀ n s, stepN fs (n + 1) s = step fs (stepN fs n s) := by
  intro n
  induction n with
  | zero => intro s; rfl
  | succ n ih => intro s; exact ih (step fs s)

/-- The only step of the scheduler that touches the close counter is the
decrement that observes the pending counter fall below one; that step closes
the stop channel and bumps the counter by exactly one. -/
theorem closeCount_step (fs : FS) (m : Sched)
    (hne : ¬ (step fs m).closeCount = m.closeCount) :
    m.ctrl = Ctrl.decr ∧ m.pending - 1 < 1
      ∧ (step fs m).closeCount = m.closeCount + 1
      ∧ (step fs m).stopClosed = true := by
  obtain ⟨cap, queue, pending, stop, cc, tl, ctrl, created⟩ := m
  cases ctrl with
  | done => exact absurd rfl hne
  | idle => by_cases htl : tl = 0 <;> simp [step, htl] at hne
  | select =>
    cases stop with
    | true => simp [step] at hne
    | false =>
      cases queue with
      | nil => exact absurd rfl hne
      | cons p rest => simp [step] at hne
  | work f stack =>
    cases f with
    | start p =>
      cases hls : fs.listDir p with
      | error e => cases stack <;> simp [step, hls, popFrame] at hne
      | ok es => simp [step, hls] at hne
    | loop p r0 =>
      cases r0 with
      | nil => cases stack <;> simp [step, popFrame] at hne
      | cons c rest =>
        cases stop with
        | true => cases stack <;> simp [step, popFrame] at hne
        | false =>
          by_cases hq : ((queue.length : Int) < cap)
          · simp [step, if_pos hq] at hne
          · simp [step, if_neg hq] at hne
    | postSend p rest => simp [step] at hne
  | decr =>
    by_cases hpd : pending - 1 < 1
    · exact ⟨rfl, hpd, by simp [step, if_pos hpd], by simp [step, if_pos hpd]⟩
    · simp [step, if_neg hpd] at hne

/-- C2: the stop broadcast happens at most once per run: in every reachable
state the close counter is at most one and is one exactly when the stop
channel is closed; the only event that bumps it is a decrement observing the
counter's transition below one while the channel is still open, which closes
the channel; and a finished run has broadcast exactly once. -/
theorem c2_stop_closed_once (fs : FS) (path : String) (threads cap : Int) (n : Nat) :
    (stepN fs n (initSched path threads cap)).closeCount ≤ 1
      ∧ (stepN fs n (initSched path threads cap)).closeCount
          = (if (stepN fs n (initSched path threads cap)).stopClosed then 1 else 0)
      ∧ (∀ m : Nat,
          ¬ (stepN fs (m + 1) (initSched path threads cap)).closeCount
              = (stepN fs m (initSched path threads cap)).closeCount →
            (stepN fs m (initSched path threads cap)).ctrl = Ctrl.decr
              ∧ (stepN fs m (initSched path threads cap)).pending - 1 < 1
              ∧ (stepN fs m (initSched path threads cap)).stopClosed = false
              ∧ (stepN fs (m + 1) (initSched path threads cap)).closeCount
                  = (stepN fs m (initSched path threads cap)).closeCount + 1
              ∧ (stepN fs (m + 1) (initSched path threads cap)).stopClosed = true)
      ∧ ((stepN fs n (initSched path threads cap)).ctrl = Ctrl.done →
          (stepN fs n (initSched path threads cap)).closeCount = 1) := by
  have hb := invB_stepN fs n (initSched path threads cap) (invB_init path threads cap)
  refine ⟨?_, hb.hclose, ?_, ?_⟩
  · rw [hb.hclose]
    split <;> omega
  · intro m hne
    rw [stepN_succ] at hne
    obtain ⟨hctrl, hpd, hcc, hstop⟩ := closeCount_step fs _ hne
    have hbm := invB_stepN fs m (initSched path threads cap) (invB_init path threads cap)
    have hopen : (stepN fs m (initSched path threads cap)).stopClosed = false := by
      cases hst : (stepN fs m (initSched path threads cap)).stopClosed with
      | false => rfl
      | true =>
        have := hbm.hstopc hst
        rw [hctrl] at this
        simp [ctrlQuiet] at this
    rw [stepN_succ]
    exact ⟨hctrl, hpd, hopen, hcc, hstop⟩
  · intro hd
    rw [hb.hclose, hb.hdone hd]
    rfl

theorem post_stop_inert (fs : FS) (s : Sched) (hs : s.stopClosed = true) (hb : InvB s) :
    (step fs s).created = s.created ∧ (step fs s).stopClosed = true := by
  have hc := hb.hstopc hs
  obtain ⟨cap, queue, pending, stop, cc, tl, ctrl, created⟩ := s
  simp only at hs hc
  subst hs
  cases ctrl with
  | done => exact ⟨rfl, rfl⟩
  | idle => by_cases htl : tl = 0 <;> simp [step, htl]
  | select => simp [step]
  | decr => simp [ctrlQuiet] at hc
  | work f stack => simp [ctrlQuiet] at hc

theorem post_stop_inert_stepN (fs : FS) :
    ∀ k (s : Sched), s.stopClosed = true → InvB s → (stepN fs k s).created = s.created := by
  intro k
  induction k with
  | zero => intro s _ _; rfl
  | succ k ih =>
    intro s hs hb
    obtain ⟨h1, h2⟩ := post_stop_inert fs s hs hb
    rw [show stepN fs (k + 1) s = stepN fs k (step fs s) from rfl,
      ih (step fs s) h2 (invB_step fs s hb), h1]

/-- C3 (divergence evidence): the worker loop iterations of Run are
sequential, not concurrent.  Once the stop signal has been broadcast, every
further step of the scheduler leaves the created log untouched — the
remaining allWork iterations do nothing — and the entire walk produces the
same multiset of node paths whatever thread count is configured. -/
theorem c3_sequential_workers (fs : FS) (rank : String → Nat) (path : String)
    (threads1 threads2 cap : Int) (h : Ranked fs rank) :
    (∀ s : Sched, s.stopClosed = true → InvB s →
        ∀ k, (stepN fs k s).created = s.created)
      ∧ (∃ n1 n2, (stepN fs n1 (initSched path threads1 cap)).ctrl = Ctrl.done
          ∧ (stepN fs n2 (initSched path threads2 cap)).ctrl = Ctrl.done
          ∧ ((stepN fs n1 (initSched path threads1 cap)).created : Multiset String)
              = ((stepN fs n2 (initSched path threads2 cap)).created : Multiset String)) := by
  constructor
  · intro s hs hb k
    exact post_stop_inert_stepN fs k s hs hb
  · obtain ⟨n1, hd1, hc1⟩ := run_completes fs rank h path threads1 cap
    obtain ⟨n2, hd2, hc2⟩ := run_completes fs rank h path threads2 cap
    exact ⟨n1, n2, hd1, hd2, by rw [hc1, hc2]⟩

/-- C5: with a deterministic listing capability, the four configurations of
the spec produce the same multiset — hence the same set — of node paths, and
the same node count, equal to the TotalLength of the recursively built
tree. -/
theorem c5_configs_agree (fs : FS) (rank : String → Nat) (path : String)
    (h : Ranked fs rank) :
    ∃ n1 n2 n3 n4,
      (stepN fs n1 (initSched path 1 0)).ctrl = Ctrl.done
      ∧ (stepN fs n2 (initSched path 1 1024)).ctrl = Ctrl.done
      ∧ (stepN fs n3 (initSched path 4 0)).ctrl = Ctrl.done
      ∧ (stepN fs n4 (initSched path 4 1024)).ctrl = Ctrl.done
      ∧ ((stepN fs n1 (initSched path 1 0)).created : Multiset String)
          = ((stepN fs n2 (initSched path 1 1024)).created : Multiset String)
      ∧ ((stepN fs n2 (initSched path 1 1024)).created : Multiset String)
          = ((stepN fs n3 (initSched path 4 0)).created : Multiset String)
      ∧ ((stepN fs n3 (initSched path 4 0)).created : Multiset String)
          = ((stepN fs n4 (initSched path 4 1024)).created : Multiset String)
      ∧ (stepN fs n1 (initSched path 1 0)).created.length
          = DNode.TotalLength (build fs (rank path + 1) path) := by
  obtain ⟨n1, hd1, hc1⟩ := run_completes fs rank h path 1 0
  obtain ⟨n2, hd2, hc2⟩ := run_completes fs rank h path 1 1024
  obtain ⟨n3, hd3, hc3⟩ := run_completes fs rank h path 4 0
  obtain ⟨n4, hd4, hc4⟩ := run_completes fs rank h path 4 1024
  refine ⟨n1, n2, n3, n4, hd1, hd2, hd3, hd4, by rw [hc1, hc2], by rw [hc2, hc3],
    by rw [hc3, hc4], ?_⟩
  have hlen := congrArg Multiset.card hc1
  simpa [allPaths_length] using hlen

/-- C9: on every ranked (finite, acyclic) filesystem the walk reaches the
finished state for every thread count and queue capacity, including a
zero-capacity queue, and no reachable unfinished state is stuck: the hand-off
loop never blocks on queue space, since each child is either enqueued
immediately, abandoned with its siblings when the stop signal is seen, or
traversed synchronously on the current call stack when the queue is full. -/
theorem c9_forward_progress (fs : FS) (rank : String → Nat) (path : String)
    (threads cap : Int) (h : Ranked fs rank) :
    (∃ n, (stepN fs n (initSched path threads cap)).ctrl = Ctrl.done)
      ∧ (∀ n, ¬ (stepN fs n (initSched path threads cap)).ctrl = Ctrl.done →
          step fs (stepN fs n (initSched path threads cap))
            ≠ stepN fs n (initSched path threads cap)) := by
  constructor
  · obtain ⟨n, hd, _⟩ := run_completes fs rank h path threads cap
    exact ⟨n, hd⟩
  · intro n hnd heq
    have hb := invB_stepN fs n (initSched path threads cap) (invB_init path threads cap)
    have hlt := schedWt_step fs rank h _ hb hnd
    rw [heq] at hlt
    omega

/-- C6: when opening or listing a directory fails, the traversal step records
that error on the node and returns it with empty children and leaves; and the
failure is invisible to every part of the walk that does not descend through
the failed path — under a second filesystem agreeing everywhere except at the
failed directory, any build that does not touch that path is unchanged, so
sibling and ancestor subtrees are enumerated exactly as they would have been.
-/
theorem c6_failure_isolation (fs1 fs2 : FS) (d e : String) (fuel : Nat)
    (hfail : fs1.listDir d = .error e)
    (hagree : ∀ q, q ≠ d → fs1.listDir q = fs2.listDir q) :
    build fs1 (fuel + 1) d = .mk (pathBase d) d [] [] (some e)
      ∧ (∀ p f, d ∉ touches fs1 f p → build fs1 f p = build fs2 f p) := by
  constructor
  · simp [build, hfail]
  · intro p f hd
    apply build_congr
    intro q hq
    apply hagree
    intro hqd
    exact hd (hqd ▸ hq)

/-- A string occurs inside another exactly when its character list is an infix
of the other's character list. -/
theorem substring_via_lists (m p : String) :
    (∃ a b : String, m = a ++ p ++ b) ↔ p.toList <:+: m.toList := by
  constructor
  · rintro ⟨a, b, rfl⟩
    exact ⟨a.toList, b.toList, rfl⟩
  · rintro ⟨u, v, h⟩
    refine ⟨String.mk u, String.mk v, String.ext ?_⟩
    exact h.symm

/-- If quoting escapes no character of the path, the quotation is just the
path wrapped in double quotes. -/
theorem goQuote_plain {tab : Char → Bool} {p : String}
    (h : ∀ ch ∈ p.toList, quoteChar tab ch = [ch]) :
    goQuote tab p = "\"" ++ p ++ "\"" := by
  apply String.ext
  show '"' :: (p.toList.flatMap (quoteChar tab) ++ ['"']) = _
  have hfl : p.toList.flatMap (quoteChar tab) = p.toList := by
    rw [List.flatMap_congr h]
    exact List.flatMap_singleton' _
  rw [hfl]
  show '"' :: (p.data ++ ['"']) = ('"' :: p.data) ++ ['"']
  simp

/-- C7 (amended): the top-level call fails with the stat error when the root
path cannot be statted; when the path exists but is not a directory it fails
with the %q message — strconv.Quote of the path followed by the words not a
directory — so the message always contains the quoted path and the words not
a directory, and contains the raw path itself whenever quoting escapes none
of its characters.  Both failures happen before any worker iteration has a
state to run on, an error result carries no tree, and the success result
pairs the seeded scheduler with a nil error. -/
theorem c7_root_validation (tab : Char → Bool) (fs : FS) (path : String)
    (threads cap : Int) :
    (∀ e, fs.stat path = .error e → RunStart tab fs path threads cap = .error e)
      ∧ (∀ fi, fs.stat path = .ok fi → fi.isDir = false →
          RunStart tab fs path threads cap
              = .error (goQuote tab path ++ ": not a directory")
            ∧ (∃ a b, goQuote tab path ++ ": not a directory"
                = a ++ goQuote tab path ++ b)
            ∧ (∃ c d, goQuote tab path ++ ": not a directory"
                = c ++ "not a directory" ++ d)
            ∧ ((∀ ch ∈ path.toList, quoteChar tab ch = [ch]) →
                ∃ a b, goQuote tab path ++ ": not a directory" = a ++ path ++ b))
      ∧ (∀ fi, fs.stat path = .ok fi → fi.isDir = true →
          RunStart tab fs path threads cap = .ok (initSched path threads cap)) := by
  refine ⟨?_, ?_, ?_⟩
  · intro e he
    simp [RunStart, he]
  · intro fi hfi hdir
    refine ⟨by simp [RunStart, hfi, hdir], ⟨"", ": not a directory", by simp⟩,
      ⟨goQuote tab path ++ ": ", "", ?_⟩, ?_⟩
    · have hlit : (": " : String) ++ "not a directory" = ": not a directory" := rfl
      rw [String.append_empty, String.append_assoc, hlit]
    · intro hplain
      refine ⟨"\"", "\": not a directory", ?_⟩
      rw [goQuote_plain hplain]
      have hlit : ("\"" : String) ++ ": not a directory" = "\": not a directory" := rfl
      rw [String.append_assoc, String.append_assoc, hlit, ← String.append_assoc]
  · intro fi hfi hdir
    simp [RunStart, hfi, hdir]

/-- The fixture for the C7 counterexample: a root path containing a double
quote, statted as a plain file. -/
def fsQ : FS where
  stat := fun p =>
    if p = "a\"b" then .ok ⟨"a\"b", false⟩
    else .error "stat: no such file or directory"
  listDir := fun _ => .error "open: no such file or directory"

/-- C7 counterexample: for the legal root path a"b the %q message of the code
is "a\"b": not a directory, and it does not contain the raw path anywhere —
the original claim's message-contains-the-path conjunct is false. -/
theorem c7_quote_counterexample :
    RunStart asciiPrint fsQ "a\"b" 4 1024
        = .error "\"a\\\"b\": not a directory"
      ∧ ¬ ∃ a b : String, ("\"a\\\"b\": not a directory" : String)
          = a ++ "a\"b" ++ b := by
  constructor
  · have hmsg : goQuote asciiPrint "a\"b" ++ ": not a directory"
        = "\"a\\\"b\": not a directory" := by decide
    simp [RunStart, fsQ, hmsg]
  · rw [substring_via_lists]
    decide

/-- C10: a traversal step building a directory classifies each listed entry by
its FileInfo directory bit — a DirectoryNode exactly when the entry is a
directory, a Leaf otherwise, as newNode does — and every created node's path
is the path.Join of the parent's path with the entry name while its stored
name is the path.Base of that path. -/
theorem c10_child_construction (fs : FS) (fuel : Nat) (p : String)
    (es : List FileInfo) (h : fs.listDir p = .ok es) :
    ((build fs (fuel + 1) p).children.map DNode.path
        = (es.filter (·.isDir)).map (fun e => pathJoin p e.name))
      ∧ ((build fs (fuel + 1) p).leaves.map Leaf.path
          = (es.filter (fun e => !e.isDir)).map (fun e => pathJoin p e.name))
      ∧ (∀ c ∈ (build fs (fuel + 1) p).children,
          c.name = pathBase c.path ∧ ∃ e ∈ es, e.isDir = true
            ∧ c.path = pathJoin p e.name)
      ∧ (∀ l ∈ (build fs (fuel + 1) p).leaves,
          l.name = pathBase l.path ∧ ∃ e ∈ es, e.isDir = false
            ∧ l.path = pathJoin p e.name)
      ∧ (∀ q fi, (∃ dnode, newNode q fi = Node.dir dnode) ↔ fi.isDir = true) := by
  have hb : build fs (fuel + 1) p
      = .mk (pathBase p) p
          ((es.filter (·.isDir)).map (fun e => build fs fuel (pathJoin p e.name)))
          ((es.filter (fun e => !e.isDir)).map
            (fun e => ⟨pathBase (pathJoin p e.name), pathJoin p e.name⟩))
          none := by
    simp [build, h]
  have hpath : ∀ q, (build fs fuel q).path = q := by
    intro q
    cases fuel with
    | zero => simp [build, DNode.path]
    | succ f => cases hls : fs.listDir q <;> simp [build, hls, DNode.path]
  have hname : ∀ q, (build fs fuel q).name = pathBase q := by
    intro q
    cases fuel with
    | zero => simp [build, DNode.name]
    | succ f => cases hls : fs.listDir q <;> simp [build, hls, DNode.name]
  refine ⟨?_, ?_, ?_, ?_, ?_⟩
  · rw [hb]
    simp only [DNode.children, List.map_map]
    exact List.map_congr_left (fun e _ => hpath _)
  · rw [hb]
    simp only [DNode.leaves, List.map_map]
    exact List.map_congr_left (fun e _ => rfl)
  · rw [hb]
    simp only [DNode.children]
    intro c hc
    rcases List.mem_map.mp hc with ⟨e, he, rfl⟩
    have he2 : e ∈ es := (List.mem_filter.mp he).1
    have hdir : e.isDir = true := by simpa using (List.mem_filter.mp he).2
    exact ⟨by rw [hpath, hname], e, he2, hdir, hpath _⟩
  · rw [hb]
    simp only [DNode.leaves]
    intro l hl
    rcases List.mem_map.mp hl with ⟨e, he, rfl⟩
    have he2 : e ∈ es := (List.mem_filter.mp he).1
    have hdir : e.isDir = false := by simpa using (List.mem_filter.mp he).2
    exact ⟨rfl, e, he2, hdir, rfl⟩
  · intro q fi
    constructor
    · rintro ⟨dnode, hd⟩
      by_contra hfi
      simp [newNode, hfi] at hd
    · intro hfi
      exact ⟨.mk (pathBase q) q [] [] none, by simp [newNode, hfi]⟩

/-! Concrete fixtures used by the witnesses. -/

/-- A small concrete filesystem: directory r holding subdirectory a (with one
file x) and one plain file f; stat knows r and r/f. -/
def fs0 : FS where
  stat := fun p =>
    if p = "r" then .ok ⟨"r", true⟩
    else if p = "r/f" then .ok ⟨"f", false⟩
    else .error "stat nope: no such file or directory"
  listDir := fun p =>
    if p = "r" then .ok [⟨"a", true⟩, ⟨"f", false⟩]
    else if p = "r/a" then .ok [⟨"x", false⟩]
    else .error "open: no such file or directory"

/-- A rank function for fs0. -/
def rank0 : String → Nat := fun p => if p = "r" then 1 else 0

theorem ranked_fs0 : Ranked fs0 rank0 := by
  intro p es hls e he hdir
  by_cases h1 : p = "r"
  · subst h1
    have hes : es = [⟨"a", true⟩, ⟨"f", false⟩] := by
      have : fs0.listDir "r" = .ok [⟨"a", true⟩, ⟨"f", false⟩] := rfl
      rw [this] at hls
      exact (Except.ok.inj hls).symm
    subst hes
    simp only [List.mem_cons, List.not_mem_nil, or_false] at he
    rcases he with rfl | rfl
    · show rank0 (pathJoin "r" "a") < rank0 "r"
      decide
    · simp at hdir
  · by_cases h2 : p = "r/a"
    · subst h2
      have hes : es = [⟨"x", false⟩] := by
        have : fs0.listDir "r/a" = .ok [⟨"x", false⟩] := rfl
        rw [this] at hls
        exact (Except.ok.inj hls).symm
      subst hes
      simp only [List.mem_cons, List.not_mem_nil, or_false] at he
      subst he
      simp at hdir
    · exfalso
      have : fs0.listDir p = .error "open: no such file or directory" := by
        simp [fs0, h1, h2]
      rw [this] at hls
      exact Except.noConfusion hls

/-- Witness for C1: concrete filesystem, initial state, nonempty queue. -/
theorem c1_counter_barrier_witness :
    Ranked fs0 rank0 ∧ 1 ≤ (stepN fs0 0 (initSched "r" 1 0)).pending :=
  ⟨ranked_fs0,
    c1_counter_barrier fs0 rank0 "r" 1 0 0 ranked_fs0 (Or.inl (by decide))⟩

/-- Witness for C3: the two thread counts give the same created multiset. -/
theorem c3_sequential_workers_witness :
    Ranked fs0 rank0
      ∧ (∃ n1 n2, (stepN fs0 n1 (initSched "r" 4 1024)).ctrl = Ctrl.done
          ∧ (stepN fs0 n2 (initSched "r" 1 1024)).ctrl = Ctrl.done
          ∧ ((stepN fs0 n1 (initSched "r" 4 1024)).created : Multiset String)
              = ((stepN fs0 n2 (initSched "r" 1 1024)).created : Multiset String)) :=
  ⟨ranked_fs0, (c3_sequential_workers fs0 rank0 "r" 4 1 1024 ranked_fs0).2⟩

/-- Witness for C5 at the concrete filesystem. -/
theorem c5_configs_agree_witness :
    Ranked fs0 rank0
      ∧ (∃ n1 n2 n3 n4,
          (stepN fs0 n1 (initSched "r" 1 0)).ctrl = Ctrl.done
          ∧ (stepN fs0 n2 (initSched "r" 1 1024)).ctrl = Ctrl.done
          ∧ (stepN fs0 n3 (initSched "r" 4 0)).ctrl = Ctrl.done
          ∧ (stepN fs0 n4 (initSched "r" 4 1024)).ctrl = Ctrl.done
          ∧ ((stepN fs0 n1 (initSched "r" 1 0)).created : Multiset String)
              = ((stepN fs0 n2 (initSched "r" 1 1024)).created : Multiset String)
          ∧ ((stepN fs0 n2 (initSched "r" 1 1024)).created : Multiset String)
              = ((stepN fs0 n3 (initSched "r" 4 0)).created : Multiset String)
          ∧ ((stepN fs0 n3 (initSched "r" 4 0)).created : Multiset String)
              = ((stepN fs0 n4 (initSched "r" 4 1024)).created : Multiset String)
          ∧ (stepN fs0 n1 (initSched "r" 1 0)).created.length
              = DNode.TotalLength (build fs0 (rank0 "r" + 1) "r")) :=
  ⟨ranked_fs0, c5_configs_agree fs0 rank0 "r" ranked_fs0⟩

/-- Witness for C9 with the zero-capacity queue. -/
theorem c9_forward_progress_witness :
    Ranked fs0 rank0
      ∧ ((∃ n, (stepN fs0 n (initSched "r" 1 0)).ctrl = Ctrl.done)
          ∧ (∀ n, ¬ (stepN fs0 n (initSched "r" 1 0)).ctrl = Ctrl.done →
              step fs0 (stepN fs0 n (initSched "r" 1 0))
                ≠ stepN fs0 n (initSched "r" 1 0))) :=
  ⟨ranked_fs0, c9_forward_progress fs0 rank0 "r" 1 0 ranked_fs0⟩

/-- The fixture for C6: directory r holding subdirectories a and b plus a
file, where listing a fails with a permission error. -/
def fsErr : FS where
  stat := fun p => if p = "r" then .ok ⟨"r", true⟩ else .error "stat: no such file"
  listDir := fun p =>
    if p = "r" then .ok [⟨"a", true⟩, ⟨"b", true⟩, ⟨"f", false⟩]
    else if p = "r/a" then .error "open r/a: permission denied"
    else if p = "r/b" then .ok [⟨"x", false⟩]
    else .error "open: no such file or directory"

/-- The same filesystem with the permission error repaired. -/
def fsOk : FS where
  stat := fun p => if p = "r" then .ok ⟨"r", true⟩ else .error "stat: no such file"
  listDir := fun p =>
    if p = "r" then .ok [⟨"a", true⟩, ⟨"b", true⟩, ⟨"f", false⟩]
    else if p = "r/a" then .ok []
    else if p = "r/b" then .ok [⟨"x", false⟩]
    else .error "open: no such file or directory"

/-- Witness for C6: the failed directory gets the error and an empty subtree,
and the sibling subtree of b is built identically with or without the
failure. -/
theorem c6_failure_isolation_witness :
    fsErr.listDir "r/a" = .error "open r/a: permission denied"
      ∧ (∀ q, q ≠ "r/a" → fsErr.listDir q = fsOk.listDir q)
      ∧ build fsErr 2 "r/a" = .mk "a" "r/a" [] [] (some "open r/a: permission denied")
      ∧ build fsErr 2 "r/b" = build fsOk 2 "r/b" := by
  have hfail : fsErr.listDir "r/a" = .error "open r/a: permission denied" := rfl
  have hagree : ∀ q, q ≠ "r/a" → fsErr.listDir q = fsOk.listDir q := by
    intro q hq
    by_cases h1 : q = "r"
    · simp [fsErr, fsOk, h1]
    · by_cases h2 : q = "r/b" <;> simp [fsErr, fsOk, h1, h2, hq]
  obtain ⟨hA, hB⟩ :=
    c6_failure_isolation fsErr fsOk "r/a" "open r/a: permission denied" 1 hfail hagree
  refine ⟨hfail, hagree, ?_, hB "r/b" 2 (by decide)⟩
  rw [hA, show pathBase "r/a" = "a" from by decide]

/-- Witness for C7: all three validation outcomes at concrete paths, with the
raw-path containment discharged for the escape-free path. -/
theorem c7_root_validation_witness :
    RunStart asciiPrint fs0 "nope" 4 1024
        = .error "stat nope: no such file or directory"
      ∧ RunStart asciiPrint fs0 "r/f" 4 1024 = .error "\"r/f\": not a directory"
      ∧ (∃ a b, ("\"r/f\": not a directory" : String) = a ++ "r/f" ++ b)
      ∧ RunStart asciiPrint fs0 "r" 4 1024 = .ok (initSched "r" 4 1024) := by
  have h2 := (c7_root_validation asciiPrint fs0 "r/f" 4 1024).2.1 ⟨"f", false⟩ rfl rfl
  refine ⟨(c7_root_validation asciiPrint fs0 "nope" 4 1024).1 _ rfl, ?_, ?_,
    (c7_root_validation asciiPrint fs0 "r" 4 1024).2.2 ⟨"r", true⟩ rfl rfl⟩
  · rw [h2.1, show goQuote asciiPrint "r/f" ++ ": not a directory"
        = "\"r/f\": not a directory" from by decide]
  · obtain ⟨a, b, hab⟩ := h2.2.2.2 (by decide)
    exact ⟨a, b, hab⟩

/-- Witness for C10 at the concrete filesystem. -/
theorem c10_child_construction_witness :
    fs0.listDir "r" = .ok [⟨"a", true⟩, ⟨"f", false⟩]
      ∧ (build fs0 (1 + 1) "r").children.map DNode.path = ["r/a"]
      ∧ (build fs0 (1 + 1) "r").leaves.map Leaf.path = ["r/f"] := by
  have h : fs0.listDir "r" = .ok [⟨"a", true⟩, ⟨"f", false⟩] := rfl
  obtain ⟨h1, h2, _, _, _⟩ := c10_child_construction fs0 1 "r" _ h
  refine ⟨h, ?_, ?_⟩
  · rw [h1]; decide
  · rw [h2]; decide

end Ctree
